import Mathlib

/-!
Shallow embedding of the ataxxgen move generator and rules engine
(src/lib.rs, src/perft.rs).  Rust u64 bitboards are modelled as Nat
values below 2^64; every bitwise operation of the source is mirrored
with the corresponding Nat operation, with the u64 complement written
as xor against the all-ones word.  Strings are modelled as List Char.
-/

namespace Ataxxgen

/-- RANK_8 mask from src/lib.rs. -/
def RANK_8 : Nat := 0xFF00000000000000

/-- FILE_H mask from src/lib.rs. -/
def FILE_H : Nat := 0x8080808080808080

/-- All-ones 64-bit word; xor against it models the Rust u64 complement. -/
def U64_MAX : Nat := 2 ^ 64 - 1

/-- Models the Rust u64 bitwise-not operator. -/
def compl64 (x : Nat) : Nat := U64_MAX ^^^ x

/-- BB_ALL from src/lib.rs: the playable 7x7 region. -/
def BB_ALL : Nat := compl64 (RANK_8 ||| FILE_H)

/-- shift_up from src/lib.rs. -/
def shift_up (bb : Nat) : Nat := (bb <<< 8) &&& BB_ALL

/-- shift_down from src/lib.rs. -/
def shift_down (bb : Nat) : Nat := (bb >>> 8) &&& BB_ALL

/-- shift_left from src/lib.rs. -/
def shift_left (bb : Nat) : Nat := (bb <<< 1) &&& BB_ALL

/-- shift_right from src/lib.rs. -/
def shift_right (bb : Nat) : Nat := (bb >>> 1) &&& BB_ALL

/-- expand from src/lib.rs: one-ring neighbourhood expansion. -/
def expand (bb : Nat) : Nat :=
  let vertical := shift_up bb ||| shift_down bb ||| bb
  (vertical ||| shift_left vertical ||| shift_right vertical) &&& BB_ALL

/-- Player from src/lib.rs. -/
inductive Player where
  | White
  | Black
deriving DecidableEq

/-- Player::to_char from src/lib.rs. -/
def Player.to_char : Player → Char
  | .White => 'x'
  | .Black => 'o'

/-- Player::from_char from src/lib.rs. -/
def Player.from_char (c : Char) : Option Player :=
  if c = 'x' then some .White
  else if c = 'o' then some .Black
  else none

/-- Square from src/lib.rs: a raw index on the 8x8 backing grid. -/
structure Square where
  val : Nat
deriving DecidableEq

/-- Square::new from src/lib.rs. -/
def Square.new (inner : Nat) : Square := ⟨inner⟩

/-- Square::from_rank_file from src/lib.rs. -/
def Square.from_rank_file (rank file : Nat) : Square := ⟨rank * 8 + file⟩

/-- Square::file from src/lib.rs. -/
def Square.file (s : Square) : Nat := s.val % 8

/-- Square::rank from src/lib.rs. -/
def Square.rank (s : Square) : Nat := s.val / 8

/-- Square::as_set from src/lib.rs. -/
def Square.as_set (s : Square) : Nat := 1 <<< s.val

/-- u8::abs_diff, used by Square::distance. -/
def absDiff (a b : Nat) : Nat := max (a - b) (b - a)

/-- Square::distance from src/lib.rs: Chebyshev distance. -/
def Square.distance (a b : Square) : Nat :=
  max (absDiff a.file b.file) (absDiff a.rank b.rank)

/-- Square::compressed_index from src/lib.rs. -/
def Square.compressed_index (s : Square) : Nat := s.file + s.rank * 7

/-- Square::from_compressed_index from src/lib.rs. -/
def Square.from_compressed_index (index : Nat) : Square :=
  Square.from_rank_file (index / 7) (index % 7)

/-- Square::A1 from src/lib.rs. -/
def Square.A1 : Square := ⟨0⟩

/-- Square::G7 from src/lib.rs. -/
def Square.G7 : Square := ⟨54⟩

/-- A raw index lies on the playable 7x7 board (Square::all filter:
file and rank both below 7). -/
def playable (i : Nat) : Prop := i < 64 ∧ i % 8 ≠ 7 ∧ i / 8 ≠ 7

instance (i : Nat) : Decidable (playable i) := by unfold playable; infer_instance

/-- Move from src/lib.rs. -/
inductive Move where
  | Single (toSq : Square)
  | Double (fromSq : Square) (toSq : Square)
  | Pass
deriving DecidableEq

/-- Move::index from src/lib.rs. -/
def Move.index : Move → Nat
  | .Single toSq => toSq.compressed_index + toSq.compressed_index * (7 * 7)
  | .Double fromSq toSq => toSq.compressed_index + fromSq.compressed_index * (7 * 7)
  | .Pass => Square.A1.compressed_index + Square.G7.compressed_index * (7 * 7)

/-- Move::from_index from src/lib.rs. -/
def Move.from_index (index : Nat) : Move :=
  if index = Square.A1.compressed_index + Square.G7.compressed_index * (7 * 7) then
    .Pass
  else
    let toSq := Square.from_compressed_index (index % (7 * 7))
    let fromSq := Square.from_compressed_index (index / (7 * 7))
    if fromSq = toSq then .Single toSq else .Double fromSq toSq

/-- Destination square of a non-Pass move (helper for stating the
capture property). -/
def Move.target? : Move → Option Square
  | .Single toSq => some toSq
  | .Double _ toSq => some toSq
  | .Pass => none

/-- Board from src/lib.rs. -/
structure Board where
  white : Nat
  black : Nat
  walls : Nat
  ply : Nat
  halfmove : Nat
deriving DecidableEq

/-- Board::new from src/lib.rs. -/
def Board.new : Board :=
  { white := 1 <<< 48 ||| 1 <<< 6
    black := 1 <<< 0 ||| 1 <<< 54
    walls := RANK_8 ||| FILE_H
    ply := 0
    halfmove := 0 }

/-- Board::turn from src/lib.rs. -/
def Board.turn (b : Board) : Player :=
  if b.ply % 2 = 0 then .White else .Black

/-- Occupancy of a given player (projection used to state theorems). -/
def Board.occOf (b : Board) : Player → Nat
  | .White => b.white
  | .Black => b.black

/-- The side to move's occupancy, as destructured in generate_moves. -/
def Board.us (b : Board) : Nat :=
  match b.turn with
  | .White => b.white
  | .Black => b.black

/-- The opponent's occupancy, as destructured in generate_moves. -/
def Board.them (b : Board) : Nat :=
  match b.turn with
  | .White => b.black
  | .Black => b.white

/-- The empty bitboard computed inside generate_moves / make_random_move. -/
def Board.emptyBB (b : Board) : Nat := compl64 (b.us ||| b.them ||| b.walls)

/-- Board::make_move from src/lib.rs.  The u8 counters wrap at 256. -/
def Board.make_move (b : Board) (mv : Move) : Board :=
  let b' :=
    match mv with
    | .Pass => b
    | .Single toSq =>
        let toBB := toSq.as_set
        let flip_zone := expand toBB
        if b.turn = Player.White then
          let wiped_out := flip_zone &&& b.black
          { b with halfmove := 0
                   white := (b.white ^^^ toBB) ||| wiped_out
                   black := b.black ^^^ wiped_out }
        else
          let wiped_out := flip_zone &&& b.white
          { b with halfmove := 0
                   black := (b.black ^^^ toBB) ||| wiped_out
                   white := b.white ^^^ wiped_out }
    | .Double fromSq toSq =>
        let fromBB := fromSq.as_set
        let toBB := toSq.as_set
        let flip_zone := expand toBB
        if b.turn = Player.White then
          let wiped_out := flip_zone &&& b.black
          { b with halfmove := (b.halfmove + 1) % 256
                   white := (b.white ^^^ (fromBB ||| toBB)) ||| wiped_out
                   black := b.black ^^^ wiped_out }
        else
          let wiped_out := flip_zone &&& b.white
          { b with halfmove := (b.halfmove + 1) % 256
                   black := (b.black ^^^ (fromBB ||| toBB)) ||| wiped_out
                   white := b.white ^^^ wiped_out }
  { b' with ply := (b'.ply + 1) % 256 }

/-- Board::game_over from src/lib.rs. -/
def Board.game_over (b : Board) : Bool :=
  (b.white == 0) || (b.black == 0)
    || ((b.white ||| b.black ||| b.walls) &&& BB_ALL == BB_ALL)
    || decide (100 ≤ b.halfmove)
    || (expand (expand (b.white ||| b.black))
          &&& compl64 (b.white ||| b.black ||| b.walls) &&& BB_ALL == 0)

/-- Board::player_at from src/lib.rs. -/
def Board.player_at (b : Board) (sq : Square) : Option Player :=
  if b.white &&& sq.as_set ≠ 0 then some .White
  else if b.black &&& sq.as_set ≠ 0 then some .Black
  else none

/-- Board::wall_at from src/lib.rs. -/
def Board.wall_at (b : Board) (sq : Square) : Bool :=
  b.walls &&& sq.as_set != 0

/-- The set-bit indices of a u64 bitboard in increasing order.  This is
how the extraction loops of the source (trailing_zeros, then clearing
the lowest set bit) visit a bitboard. -/
def bitIndices (bb : Nat) : List Nat :=
  (List.range 64).filter (fun i => bb.testBit i)

/-- The doubles-target bitboard computed per origin square inside
generate_moves and make_random_move. -/
def double_tgts (empty : Nat) (fromIdx : Nat) : Nat :=
  let local_singles := expand (1 <<< fromIdx)
  expand local_singles &&& empty &&& compl64 local_singles

/-- Board::generate_moves from src/lib.rs, materialised as the ordered
list of moves pushed to a listener that never early-terminates. -/
def Board.generate_moves (b : Board) : List Move :=
  if b.game_over then [] else
  let us := b.us
  let empty := b.emptyBB
  let singles := expand us &&& empty
  let singlesList := (bitIndices singles).map (fun i => Move.Single (Square.new i))
  let doublesList := (bitIndices us).flatMap (fun f =>
    (bitIndices (double_tgts empty f)).map
      (fun i => Move.Double (Square.new f) (Square.new i)))
  let any_generated := (singles != 0) ||
    (bitIndices us).any (fun f => double_tgts empty f != 0)
  singlesList ++ doublesList ++ (if any_generated then [] else [Move.Pass])

/-- The choice-decrement selection walk of make_random_move: take the
selected move, or none when the walk falls off the end (the source's
unreachable branch). -/
def pickMove : List Move → Nat → Option Move
  | [], _ => none
  | m :: _, 0 => some m
  | _ :: ms, k + 1 => pickMove ms k

/-- Board::make_random_move from src/lib.rs.  The rng argument is
called as rng(0, mv_count); the double_map array is modelled as the
function sending each origin index to its stored target bitboard
(entries of origins the mover does not occupy stay 0).  The source's
unreachable branch is modelled as none. -/
def Board.make_random_move (b : Board) (rng : Nat → Nat → Nat) : Option Board :=
  if b.game_over then some b else
  let us := b.us
  let empty := b.emptyBB
  let singles := expand us &&& empty
  let double_map : Nat → Nat := fun f =>
    if us.testBit f then double_tgts empty f else 0
  let mv_count := (bitIndices singles).length +
    ((bitIndices us).map (fun f => (bitIndices (double_tgts empty f)).length)).sum
  let any_generated := (singles != 0) ||
    (bitIndices us).any (fun f => double_tgts empty f != 0)
  if !any_generated then some (b.make_move .Pass) else
  let choice := rng 0 mv_count
  let singlesList := (bitIndices singles).map (fun i => Move.Single (Square.new i))
  let doublesList := (List.range 64).flatMap (fun f =>
    (bitIndices (double_map f)).map
      (fun i => Move.Double (Square.new f) (Square.new i)))
  match pickMove (singlesList ++ doublesList) choice with
  | some m => some (b.make_move m)
  | none => none

/-- perft from src/perft.rs. -/
def perft (b : Board) : Nat → Nat
  | 0 => 1
  | 1 => b.generate_moves.length
  | d + 1 => (b.generate_moves.map (fun mv => perft (b.make_move mv) d)).sum

/-- FenError from src/lib.rs. -/
inductive FenError where
  | NotEnoughParts
  | NotEnoughRanks
  | TooManyRanks
  | NotEnoughFiles (rank : Nat)
  | TooManyFiles (rank : Nat)
  | InvalidChar (c : Char)
  | InvalidStm
  | InvalidHalfmove
  | InvalidFullmove
deriving DecidableEq

/-- The run-length loop inside Board::fen that counts consecutive empty
files; returns the final empty-square count and file index.  The fuel
bounds the loop; 8 always suffices since the file index is below 7 and
strictly increases. -/
def fenRunLoop (b : Board) (rank : Nat) : Nat → Nat → Nat → Nat × Nat
  | 0, file, empty_squares => (empty_squares, file)
  | fuel + 1, file, empty_squares =>
      if file < 6 && (b.player_at (Square.from_rank_file rank (file + 1))).isNone then
        fenRunLoop b rank fuel (file + 1) (empty_squares + 1)
      else (empty_squares, file)

/-- The per-rank emission loop inside Board::fen.  Fuel as above. -/
def fenRankLoop (b : Board) (rank : Nat) : Nat → Nat → List Char
  | 0, _ => []
  | fuel + 1, file =>
      if file < 7 then
        let sq := Square.from_rank_file rank file
        match b.player_at sq with
        | some p => p.to_char :: fenRankLoop b rank fuel (file + 1)
        | none =>
            if b.wall_at sq then '-' :: fenRankLoop b rank fuel (file + 1)
            else
              let res := fenRunLoop b rank 8 file 1
              Nat.toDigits 10 res.1 ++ fenRankLoop b rank fuel (res.2 + 1)
      else []

/-- The outer rank loop of Board::fen: ranks from 6 down to 0, with a
slash after every rank but the last. -/
def fenRanks (b : Board) : Nat → List Char
  | 0 => []
  | r + 1 =>
      fenRankLoop b r 8 0 ++
        (if r > 0 then '/' :: fenRanks b r else fenRanks b r)

/-- Board::fen from src/lib.rs, producing the record string as a list
of characters. -/
def Board.fen (b : Board) : List Char :=
  fenRanks b 7 ++ (' ' :: [b.turn.to_char])
    ++ (' ' :: Nat.toDigits 10 b.halfmove)
    ++ (' ' :: Nat.toDigits 10 (b.ply / 2 + 1))

/-- str::split_whitespace as used by reset_from_fen: split on
whitespace, dropping empty chunks.  The second argument accumulates the
current chunk in reverse. -/
def splitWs : List Char → List Char → List (List Char)
  | [], acc => if acc.isEmpty then [] else [acc.reverse]
  | c :: cs, acc =>
      if c.isWhitespace then
        if acc.isEmpty then splitWs cs [] else acc.reverse :: splitWs cs []
      else splitWs cs (c :: acc)

/-- str::split on a separator character, as used for the rank fields:
keeps empty chunks. -/
def splitChar (sep : Char) : List Char → List Char → List (List Char)
  | [], acc => [acc.reverse]
  | c :: cs, acc =>
      if c = sep then acc.reverse :: splitChar sep cs []
      else splitChar sep cs (c :: acc)

/-- str::parse for an unsigned integer type with the given maximum:
optional leading plus sign, then a nonempty digit string whose value
must not exceed the bound. -/
def parseUInt (s : List Char) (bound : Nat) : Option Nat :=
  let s' := match s with
    | '+' :: rest => rest
    | _ => s
  if s'.isEmpty || !s'.all Char.isDigit then none
  else
    let v := s'.foldl (fun a c => a * 10 + (c.toNat - 48)) 0
    if v ≤ bound then some v else none

/-- The inner character loop of Board::reset_from_fen_parts for one
rank field, threading the accumulated state and file index. -/
def parseRankChars (rank_idx : Nat) : Board → Nat → List Char →
    Except FenError (Board × Nat)
  | state, file_idx, [] => .ok (state, file_idx)
  | state, file_idx, c :: cs =>
      if 8 ≤ file_idx then .error (.TooManyFiles rank_idx)
      else if c.isDigit then
        parseRankChars rank_idx state (file_idx + (c.toNat - 48)) cs
      else
        let sq := Square.from_rank_file (6 - rank_idx) file_idx
        match Player.from_char c with
        | some .White =>
            parseRankChars rank_idx { state with white := state.white ||| sq.as_set }
              (file_idx + 1) cs
        | some .Black =>
            parseRankChars rank_idx { state with black := state.black ||| sq.as_set }
              (file_idx + 1) cs
        | none =>
            if c = '-' then
              parseRankChars rank_idx { state with walls := state.walls ||| sq.as_set }
                (file_idx + 1) cs
            else .error (.InvalidChar c)

/-- The outer rank loop of Board::reset_from_fen_parts, threading the
accumulated state over the rank fields. -/
def parseRanks : List (List Char) → Nat → Board → Except FenError Board
  | [], _, state => .ok state
  | r :: rs, rank_idx, state =>
      match parseRankChars rank_idx state 0 r with
      | .error e => .error e
      | .ok (state', file_idx) =>
          if file_idx < 7 then .error (.NotEnoughFiles rank_idx)
          else if 7 < file_idx then .error (.TooManyFiles rank_idx)
          else parseRanks rs (rank_idx + 1) state'

/-- Board::reset_from_fen_parts from src/lib.rs.  Returns the receiver
board after the call together with the Result: the parsed position is
accumulated in a local state initialised from Self::default(), and only
the receiver's ply field is ever assigned (just as in the source); the
fullmove arithmetic wraps as u32 and the final cast truncates to u8. -/
def Board.reset_from_fen_parts (self : Board) (parts : List (List Char)) :
    Board × Except FenError Unit :=
  match parts with
  | p0 :: p1 :: p2 :: p3 :: _ =>
      let ranks := splitChar '/' p0 []
      if ranks.length < 7 then (self, .error .NotEnoughRanks)
      else if 7 < ranks.length then (self, .error .TooManyRanks)
      else
        match parseRanks ranks 0 Board.new with
        | .error e => (self, .error e)
        | .ok state =>
            match p1 with
            | [stmc] =>
                match Player.from_char stmc with
                | none => (self, .error .InvalidStm)
                | some stm =>
                    let black_to_move := stm = Player.Black
                    match parseUInt p2 255 with
                    | none => (self, .error .InvalidHalfmove)
                    | some halfmove =>
                        let _state := { state with halfmove := halfmove }
                        match parseUInt p3 (2 ^ 32 - 1) with
                        | none => (self, .error .InvalidFullmove)
                        | some fullmove =>
                            ({ self with ply :=
                                (((fullmove + (2 ^ 32 - 1)) % 2 ^ 32) * 2 % 2 ^ 32
                                  + (if black_to_move then 1 else 0)) % 2 ^ 32 % 256 },
                             .ok ())
            | _ => (self, .error .InvalidStm)
  | _ => (self, .error .NotEnoughParts)

/-- Board::reset_from_fen from src/lib.rs. -/
def Board.reset_from_fen (self : Board) (fen : List Char) :
    Board × Except FenError Unit :=
  self.reset_from_fen_parts (splitWs fen [])

/-- FromStr for Board from src/lib.rs: parse starting from
Board::default(). -/
def Board.from_str (s : List Char) : Except FenError Board :=
  match Board.new.reset_from_fen s with
  | (b, .ok _) => .ok b
  | (_, .error e) => .error e

/-! ### Basic bit-level lemmas about the embedding -/

theorem BB_ALL_lt : BB_ALL < 2 ^ 64 := by decide

theorem BB_ALL_testBit_high {i : Nat} (h : 64 ≤ i) : BB_ALL.testBit i = false :=
  Nat.testBit_lt_two_pow
    (lt_of_lt_of_le BB_ALL_lt (Nat.pow_le_pow_right (by decide) h))

theorem BB_ALL_testBit_iff (i : Nat) : BB_ALL.testBit i = true ↔ playable i := by
  rcases Nat.lt_or_ge i 64 with h | h
  · exact (by decide :
      ∀ j, j < 64 → (BB_ALL.testBit j = true ↔ playable j)) i h
  · rw [BB_ALL_testBit_high h]
    simp only [Bool.false_eq_true, false_iff, playable]
    omega

theorem expand_testBit_high (x : Nat) {i : Nat} (h : 64 ≤ i) :
    (expand x).testBit i = false := by
  unfold expand
  simp [Nat.testBit_and, BB_ALL_testBit_high h]

theorem expand_subset_BB {x i : Nat} (h : (expand x).testBit i = true) :
    BB_ALL.testBit i = true := by
  simp only [expand, Nat.testBit_and, Bool.and_eq_true] at h
  exact h.2

theorem compl64_testBit (x : Nat) {i : Nat} (h : i < 64) :
    (compl64 x).testBit i = !(x.testBit i) := by
  unfold compl64 U64_MAX
  rw [Nat.testBit_xor, Nat.testBit_two_pow_sub_one]
  simp [h]

theorem zero_iff_testBit (x : Nat) : x = 0 ↔ ∀ i, x.testBit i = false := by
  constructor
  · rintro rfl i; exact Nat.zero_testBit i
  · intro h; exact Nat.eq_of_testBit_eq (fun i => by rw [h i, Nat.zero_testBit])

theorem mem_bitIndices {bb i : Nat} :
    i ∈ bitIndices bb ↔ i < 64 ∧ bb.testBit i = true := by
  simp [bitIndices, List.mem_filter, List.mem_range, and_comm]

theorem bitIndices_zero : bitIndices 0 = [] := rfl

theorem emptyBB_testBit (b : Board) {i : Nat} (h : i < 64) :
    b.emptyBB.testBit i
      = !(b.us.testBit i || b.them.testBit i || b.walls.testBit i) := by
  unfold Board.emptyBB
  rw [compl64_testBit _ h]
  simp [Nat.testBit_or]

/-! ### C8: expansion of a single cell -/

/-- C8 counterexample: the claim says the ring-expansion of a single
playable square s yields exactly the playable cells at Chebyshev
distance exactly 1 from s; but the expansion of the one-cell set at A1
contains A1 itself, whose distance from itself is 0, refuting the claim
at s = A1. -/
theorem c8_counterexample :
    (expand ((Square.new 0).as_set)).testBit 0 = true ∧
      Square.distance (Square.new 0) (Square.new 0) ≠ 1 := by decide

/-- C8 (amended): for every playable square s, the ring-expansion of
the one-cell set at s yields exactly the playable cells within
Chebyshev distance 1 of s, that is, s itself together with its
in-bounds 8-neighbours (fewer at the edges of the 7x7 region). -/
theorem c8_expand_single (s : Nat) (hs : playable s) (i : Nat) :
    (expand ((Square.new s).as_set)).testBit i = true ↔
      (playable i ∧ Square.distance (Square.new s) (Square.new i) ≤ 1) := by
  rcases Nat.lt_or_ge i 64 with h | h
  · exact (by decide :
      ∀ s', s' < 64 → ∀ i', i' < 64 →
        (playable s' →
          ((expand ((Square.new s').as_set)).testBit i' = true ↔
            (playable i' ∧ Square.distance (Square.new s') (Square.new i') ≤ 1))))
      s hs.1 i h hs
  · rw [expand_testBit_high _ h]
    simp only [Bool.false_eq_true, false_iff]
    rintro ⟨⟨hlt, -⟩, -⟩
    omega

/-- C8 witness: instantiating the amended theorem at s = A1, i = B2
(distance 1, in the expansion). -/
theorem c8_witness :
    (expand ((Square.new 0).as_set)).testBit 9 = true ↔
      (playable 9 ∧ Square.distance (Square.new 0) (Square.new 9) ≤ 1) :=
  c8_expand_single 0 (by decide) 9

/-! ### C2: move index bijection -/

/-- C2 counterexample: the double move from G7 to A1 encodes to the
same index as Pass, so decoding does not return it; the claimed
bijection over all pairs of distinct playable squares fails there. -/
theorem c2_counterexample :
    Move.from_index (Move.Double Square.G7 Square.A1).index
        = Move.Pass ∧
      Move.from_index (Move.Double Square.G7 Square.A1).index
        ≠ Move.Double Square.G7 Square.A1 := by decide

/-- C2 (amended): decoding the encoded index returns the move for Pass,
for every Single to a playable square, and for every Double between
distinct playable squares except Double from G7 to A1, whose index
collides with the reserved Pass index. -/
theorem c2_move_index_roundtrip :
    Move.from_index Move.Pass.index = Move.Pass ∧
    (∀ t, t < 64 → playable t →
      Move.from_index (Move.Single (Square.new t)).index
        = Move.Single (Square.new t)) ∧
    (∀ f, f < 64 → ∀ t, t < 64 → playable f → playable t → f ≠ t →
      ¬(f = 54 ∧ t = 0) →
      Move.from_index (Move.Double (Square.new f) (Square.new t)).index
        = Move.Double (Square.new f) (Square.new t)) := by
  refine ⟨by decide, by decide, ?_⟩
  have key : ∀ f, f < 64 → ∀ t, t < 64 →
      ((playable f ∧ playable t ∧ f ≠ t ∧ ¬(f = 54 ∧ t = 0)) →
        Move.from_index (Move.Double (Square.new f) (Square.new t)).index
          = Move.Double (Square.new f) (Square.new t)) := by decide
  intro f hf t ht h1 h2 h3 h4
  exact key f hf t ht ⟨h1, h2, h3, h4⟩

/-- C2 witness: the amended round-trip at the double move G1 to F1. -/
theorem c2_witness :
    Move.from_index (Move.Double (Square.new 6) (Square.new 5)).index
      = Move.Double (Square.new 6) (Square.new 5) :=
  c2_move_index_roundtrip.2.2 6 (by decide) 5 (by decide) (by decide)
    (by decide) (by decide) (by decide)

/-! ### C3: perft of the starting position at depth 1 -/

/-- C3: perft applied to the starting position at depth 1 returns 16. -/
theorem c3_perft_start_depth1 : perft Board.new 1 = 16 := by decide

/-! ### C1: the FEN round-trip -/

/-- C1: the record round-trip fails on the code.  Playing the
generator-legal single move to f1 from the starting position and
parsing the resulting record string does not return the same board:
the parser only assigns the ply field of the receiver (the position
parsed from the string is accumulated in a local state that is never
written back), so the decoded board keeps the starting occupancy. -/
theorem c1_fen_roundtrip_fails :
    Move.Single (Square.new 5) ∈ Board.new.generate_moves ∧
    Board.from_str ((Board.new.make_move (Move.Single (Square.new 5))).fen)
        = Except.ok { Board.new with ply := 1 } ∧
    { Board.new with ply := 1 }
        ≠ Board.new.make_move (Move.Single (Square.new 5)) :=
  ⟨by decide, by rfl, by decide⟩
/-! ### C10: parse errors leave the board unchanged -/

theorem reset_from_fen_parts_cases (b : Board) (parts : List (List Char)) :
    (Board.reset_from_fen_parts b parts).1 = b ∨
      (Board.reset_from_fen_parts b parts).2 = Except.ok () := by
  unfold Board.reset_from_fen_parts
  dsimp only
  all_goals repeat first
    | exact Or.inl rfl
    | exact Or.inr rfl
    | split
    | dsimp only

/-- C10: whenever reset_from_fen returns an error, the receiver board
is exactly as it was before the call: every mutation on the success
path of the source happens either on the local parsing state or, for
the ply field, only after all error returns have been passed. -/
theorem c10_reset_from_fen_error_unchanged (b : Board) (s : List Char)
    (e : FenError) (h : (b.reset_from_fen s).2 = Except.error e) :
    (b.reset_from_fen s).1 = b := by
  unfold Board.reset_from_fen at h ⊢
  rcases reset_from_fen_parts_cases b (splitWs s []) with h1 | h1
  · exact h1
  · rw [h1] at h; exact absurd h (by simp)

/-- C10 witness: a one-token input fails with NotEnoughParts and the
board is returned untouched. -/
theorem c10_witness : (Board.new.reset_from_fen ['x']).1 = Board.new :=
  c10_reset_from_fen_error_unchanged Board.new ['x'] FenError.NotEnoughParts rfl
/-! ### C4: characterisation of game_over -/

theorem and_BB_eq_BB_iff (x : Nat) :
    x &&& BB_ALL = BB_ALL ↔ ∀ i, playable i → x.testBit i = true := by
  constructor
  · intro h i hi
    have hcongr := congrArg (fun y => y.testBit i) h
    simp only [Nat.testBit_and] at hcongr
    have hb : BB_ALL.testBit i = true := (BB_ALL_testBit_iff i).mpr hi
    rw [hb] at hcongr
    cases hx : x.testBit i
    · rw [hx] at hcongr; simp at hcongr
    · rfl
  · intro h
    apply Nat.eq_of_testBit_eq
    intro i
    rw [Nat.testBit_and]
    cases hb : BB_ALL.testBit i
    · simp
    · simp [h i ((BB_ALL_testBit_iff i).mp hb)]

/-- The terminal condition exactly as the claim phrases it, in terms of
cells: an occupancy set is empty, the playable region is covered,
the quiet counter reached 100, or the joint two-ring expansion of the
union of both occupancies contains no still-empty playable cell. -/
def GameOverSpec (b : Board) : Prop :=
  (∀ i, b.white.testBit i = false) ∨
  (∀ i, b.black.testBit i = false) ∨
  (∀ i, playable i →
    (b.white.testBit i = true ∨ b.black.testBit i = true ∨
      b.walls.testBit i = true)) ∨
  100 ≤ b.halfmove ∨
  ¬ ∃ i, playable i ∧
      (expand (expand (b.white ||| b.black))).testBit i = true ∧
      b.white.testBit i = false ∧ b.black.testBit i = false ∧
      b.walls.testBit i = false

/-- C4: game_over returns true exactly when one of the claim's five
conditions holds. -/
theorem c4_game_over_iff (b : Board) : b.game_over = true ↔ GameOverSpec b := by
  have h3 : ((b.white ||| b.black ||| b.walls) &&& BB_ALL = BB_ALL) ↔
      (∀ i, playable i →
        (b.white.testBit i = true ∨ b.black.testBit i = true ∨
          b.walls.testBit i = true)) := by
    rw [and_BB_eq_BB_iff]
    refine forall_congr' (fun i => imp_congr_right (fun _ => ?_))
    simp [Nat.testBit_or, Bool.or_eq_true, or_assoc]
  have h5 : (expand (expand (b.white ||| b.black))
        &&& compl64 (b.white ||| b.black ||| b.walls) &&& BB_ALL = 0) ↔
      ¬ ∃ i, playable i ∧
        (expand (expand (b.white ||| b.black))).testBit i = true ∧
        b.white.testBit i = false ∧ b.black.testBit i = false ∧
        b.walls.testBit i = false := by
    rw [zero_iff_testBit]
    constructor
    · rintro h ⟨i, hp, hE, hw, hb2, hwl⟩
      have hi := h i
      rw [Nat.testBit_and, Nat.testBit_and, hE,
        compl64_testBit _ hp.1, (BB_ALL_testBit_iff i).mpr hp] at hi
      simp [Nat.testBit_or, hw, hb2, hwl] at hi
    · intro h i
      rw [Nat.testBit_and, Nat.testBit_and]
      cases hBB : BB_ALL.testBit i
      · simp
      case true =>
        cases hE : (expand (expand (b.white ||| b.black))).testBit i
        · simp
        case true =>
          have hp := (BB_ALL_testBit_iff i).mp hBB
          cases hC : (compl64 (b.white ||| b.black ||| b.walls)).testBit i
          · simp
          case true =>
            exfalso
            apply h
            rw [compl64_testBit _ hp.1] at hC
            simp only [Bool.not_eq_true', Nat.testBit_or,
              Bool.or_eq_false_iff] at hC
            exact ⟨i, hp, hE, hC.1.1, hC.1.2, hC.2⟩
  have hgo : b.game_over = true ↔
      (b.white = 0 ∨ b.black = 0 ∨
        (b.white ||| b.black ||| b.walls) &&& BB_ALL = BB_ALL ∨
        100 ≤ b.halfmove ∨
        expand (expand (b.white ||| b.black))
          &&& compl64 (b.white ||| b.black ||| b.walls) &&& BB_ALL = 0) := by
    unfold Board.game_over
    simp [Bool.or_eq_true, beq_iff_eq, decide_eq_true_eq, or_assoc]
  rw [hgo]
  unfold GameOverSpec
  rw [zero_iff_testBit b.white, zero_iff_testBit b.black, h3, h5]
/-! ### Facts extracted from generator membership -/

theorem square_new_val (t : Square) : Square.new t.val = t := rfl

theorem us_turn_white {b : Board} (h : b.turn = Player.White) :
    b.us = b.white := by unfold Board.us; rw [h]

theorem us_turn_black {b : Board} (h : b.turn = Player.Black) :
    b.us = b.black := by unfold Board.us; rw [h]

theorem them_turn_white {b : Board} (h : b.turn = Player.White) :
    b.them = b.black := by unfold Board.them; rw [h]

theorem them_turn_black {b : Board} (h : b.turn = Player.Black) :
    b.them = b.white := by unfold Board.them; rw [h]

theorem emptyBB_facts {b : Board} {i : Nat} (hlt : i < 64)
    (h : b.emptyBB.testBit i = true) :
    b.us.testBit i = false ∧ b.them.testBit i = false ∧
      b.walls.testBit i = false := by
  rw [emptyBB_testBit b hlt] at h
  simp only [Bool.not_eq_true', Bool.or_eq_false_iff] at h
  exact ⟨h.1.1, h.1.2, h.2⟩

theorem single_not_mem_pass_tail (t : Square) (c : Bool) :
    Move.Single t ∉ (if c then ([] : List Move) else [Move.Pass]) := by
  cases c <;> simp

theorem double_not_mem_pass_tail (f t : Square) (c : Bool) :
    Move.Double f t ∉ (if c then ([] : List Move) else [Move.Pass]) := by
  cases c <;> simp

theorem mem_generate_single {b : Board} {t : Square}
    (h : Move.Single t ∈ b.generate_moves) :
    b.game_over = false ∧ t.val < 64 ∧
      (expand b.us &&& b.emptyBB).testBit t.val = true := by
  cases hgo : b.game_over
  case true => simp [Board.generate_moves, hgo] at h
  case false =>
    refine ⟨rfl, ?_⟩
    simp only [Board.generate_moves, hgo] at h
    simp only [Bool.false_eq_true, if_false, List.mem_append] at h
    rcases h with (h | h) | h
    · simp only [List.mem_map, mem_bitIndices] at h
      obtain ⟨i, ⟨hi64, hbit⟩, heq⟩ := h
      cases heq
      exact ⟨hi64, hbit⟩
    · simp [List.mem_flatMap, List.mem_map] at h
    · exact absurd h (single_not_mem_pass_tail t _)

theorem mem_generate_double {b : Board} {f t : Square}
    (h : Move.Double f t ∈ b.generate_moves) :
    b.game_over = false ∧ f.val < 64 ∧ b.us.testBit f.val = true ∧
      t.val < 64 ∧ (double_tgts b.emptyBB f.val).testBit t.val = true := by
  cases hgo : b.game_over
  case true => simp [Board.generate_moves, hgo] at h
  case false =>
    refine ⟨rfl, ?_⟩
    simp only [Board.generate_moves, hgo] at h
    simp only [Bool.false_eq_true, if_false, List.mem_append] at h
    rcases h with (h | h) | h
    · simp [List.mem_map] at h
    · simp only [List.mem_flatMap, List.mem_map, mem_bitIndices] at h
      obtain ⟨ff, ⟨hf64, hfbit⟩, i, ⟨hi64, hbit⟩, heq⟩ := h
      obtain ⟨rfl, rfl⟩ : Square.new ff = f ∧ Square.new i = t := by
        cases heq; exact ⟨rfl, rfl⟩
      exact ⟨hf64, hfbit, hi64, hbit⟩
    · exact absurd h (double_not_mem_pass_tail f t _)

/-! ### C6: the generator on terminal and immobile boards -/

theorem flatMap_eq_nil_of_forall {α β : Type} {l : List α} {g : α → List β}
    (h : ∀ x ∈ l, g x = []) : l.flatMap g = [] := by
  induction l with
  | nil => rfl
  | cons a l ih =>
      rw [List.flatMap_cons, h a (by simp), List.nil_append]
      exact ih (fun x hx => h x (List.mem_cons_of_mem a hx))

theorem generate_moves_eq_pass (b : Board) (hgo : b.game_over = false)
    (hsingles : expand b.us &&& b.emptyBB = 0)
    (hdoubles : ∀ f, f < 64 → b.us.testBit f = true →
      double_tgts b.emptyBB f = 0) :
    b.generate_moves = [Move.Pass] := by
  have hd : ∀ f ∈ bitIndices b.us,
      (bitIndices (double_tgts b.emptyBB f)).map
        (fun i => Move.Double (Square.new f) (Square.new i)) = [] := by
    intro f hf
    rw [mem_bitIndices] at hf
    rw [hdoubles f hf.1 hf.2, bitIndices_zero, List.map_nil]
  have hany2 : (bitIndices b.us).any
      (fun f => double_tgts b.emptyBB f != 0) = false := by
    rw [List.any_eq_false]
    intro f hf
    rw [mem_bitIndices] at hf
    simp [hdoubles f hf.1 hf.2]
  simp only [Board.generate_moves, hgo, Bool.false_eq_true, if_false]
  rw [hsingles, bitIndices_zero, List.map_nil,
    flatMap_eq_nil_of_forall hd]
  simp [hany2]

/-- C6: the generator yields nothing on a terminal board; and on a
non-terminal board where the singles bitboard is empty and every
doubles-target bitboard of an occupied origin is empty, it yields
exactly the one move Pass. -/
theorem c6_generator_terminal_and_pass (b : Board) :
    (b.game_over = true → b.generate_moves = []) ∧
    (b.game_over = false →
      expand b.us &&& b.emptyBB = 0 →
      (∀ f, f < 64 → b.us.testBit f = true → double_tgts b.emptyBB f = 0) →
      b.generate_moves = [Move.Pass]) := by
  constructor
  · intro h
    simp [Board.generate_moves, h]
  · exact generate_moves_eq_pass b

/-- A board where the white mover at a1 is walled in behind both
rings (no single and no double exists for white) while black at g7 has
room, so the board is not terminal. -/
def c6Board : Board :=
  { white := 1
    black := 1 <<< 54
    walls := RANK_8 ||| FILE_H ||| (1 <<< 1) ||| (1 <<< 2) ||| (1 <<< 8)
      ||| (1 <<< 9) ||| (1 <<< 10) ||| (1 <<< 16) ||| (1 <<< 17) ||| (1 <<< 18)
    ply := 0
    halfmove := 0 }

/-- C6 witness: on that board the generator yields exactly Pass. -/
theorem c6_witness : c6Board.generate_moves = [Move.Pass] :=
  (c6_generator_terminal_and_pass c6Board).2 (by decide) (by decide)
    ((by decide :
        ∀ f, f < 64 →
          (c6Board.us.testBit f = true → double_tgts c6Board.emptyBB f = 0)))
/-! ### C5: the capture step flips exactly the ring around the target -/

/-- The mover's occupancy after the move (the occupancy, in the updated
board, of the player who was to move). -/
def Board.moverOccAfter (b : Board) (m : Move) : Nat :=
  match b.turn with
  | .White => (b.make_move m).white
  | .Black => (b.make_move m).black

/-- The opponent's occupancy after the move. -/
def Board.oppOccAfter (b : Board) (m : Move) : Nat :=
  match b.turn with
  | .White => (b.make_move m).black
  | .Black => (b.make_move m).white

theorem distance_comm (a b : Square) :
    Square.distance a b = Square.distance b a := by
  unfold Square.distance absDiff
  rw [Nat.max_comm (a.file - b.file) (b.file - a.file),
    Nat.max_comm (a.rank - b.rank) (b.rank - a.rank)]

theorem flip_zone_mem {t : Square} (hplayt : playable t.val) {i : Nat}
    (hplayi : playable i) (hd : Square.distance (Square.new i) t ≤ 1) :
    (expand t.as_set).testBit i = true := by
  have h := c8_expand_single t.val hplayt i
  rw [square_new_val] at h
  exact h.mpr ⟨hplayi, by rw [distance_comm]; exact hd⟩

theorem flip_zone_not_mem {t : Square} (hplayt : playable t.val) {i : Nat}
    (hd : 1 < Square.distance (Square.new i) t) :
    (expand t.as_set).testBit i = false := by
  cases hE : (expand t.as_set).testBit i
  · rfl
  · exfalso
    have h := c8_expand_single t.val hplayt i
    rw [square_new_val] at h
    have hle := (h.mp hE).2
    rw [distance_comm] at hle
    omega

/-- C5 counterexample: on a board whose opponent occupancy contains the
non-playable square h1 (file H), the generator-legal single move to g1
does not flip h1 even though it is an opponent cell at Chebyshev
distance 1 of the destination, because the flip zone is masked to the
playable region; this refutes the claim quantified over every Board. -/
theorem c5_counterexample :
    Move.Single (Square.new 6) ∈
      ({ white := 1 <<< 5, black := 1 <<< 7, walls := RANK_8 ||| FILE_H,
         ply := 0, halfmove := 0 } : Board).generate_moves ∧
    ({ white := 1 <<< 5, black := 1 <<< 7, walls := RANK_8 ||| FILE_H,
       ply := 0, halfmove := 0 } : Board).them.testBit 7 = true ∧
    Square.distance (Square.new 7) (Square.new 6) ≤ 1 ∧
    (({ white := 1 <<< 5, black := 1 <<< 7, walls := RANK_8 ||| FILE_H,
        ply := 0, halfmove := 0 } : Board).moverOccAfter
      (Move.Single (Square.new 6))).testBit 7 = false := by decide

/-- C5 (amended): for every Board whose opponent occupancy lies inside
the playable region, and every generator-legal Single or Double move
with destination t, every opponent cell within Chebyshev distance 1
of t belongs to the mover afterwards and is no longer the opponent's,
and every opponent cell at distance greater than 1 is still the
opponent's (so the flip is unconditional and confined to the one-ring
neighbourhood of the destination, with no chain reaction). -/
theorem c5_flip_ring (b : Board) (hthem : b.them &&& BB_ALL = b.them)
    (m : Move) (hm : m ∈ b.generate_moves) (t : Square)
    (ht : m.target? = some t) (i : Nat) (hi : b.them.testBit i = true) :
    (Square.distance (Square.new i) t ≤ 1 →
      (b.moverOccAfter m).testBit i = true ∧
        (b.oppOccAfter m).testBit i = false) ∧
    (1 < Square.distance (Square.new i) t →
      (b.oppOccAfter m).testBit i = true) := by
  have hBBi : BB_ALL.testBit i = true := by
    have hc := congrArg (fun y => y.testBit i) hthem
    simp only [Nat.testBit_and] at hc
    rw [hi] at hc
    simpa using hc
  have hplayi : playable i := (BB_ALL_testBit_iff i).mp hBBi
  cases m with
  | Pass => simp [Move.target?] at ht
  | Single t' =>
    obtain rfl : t = t' := by simpa [Move.target?] using ht.symm
    obtain ⟨hgo, ht64, hbit⟩ := mem_generate_single hm
    rw [Nat.testBit_and, Bool.and_eq_true] at hbit
    obtain ⟨hEx, hEmpty⟩ := hbit
    have hplayt : playable t.val :=
      (BB_ALL_testBit_iff t.val).mp (expand_subset_BB hEx)
    cases hturn : b.turn with
    | White =>
      have hthemb := them_turn_white hturn
      rw [hthemb] at hi
      refine ⟨fun hd => ?_, fun hd => ?_⟩
      · have hflip := flip_zone_mem hplayt hplayi hd
        constructor <;>
          simp [Board.moverOccAfter, Board.oppOccAfter, Board.make_move,
            hturn, hflip, hi]
      · have hflip := flip_zone_not_mem hplayt hd
        simp [Board.oppOccAfter, Board.make_move, hturn, hflip, hi]
    | Black =>
      have hthemb := them_turn_black hturn
      rw [hthemb] at hi
      refine ⟨fun hd => ?_, fun hd => ?_⟩
      · have hflip := flip_zone_mem hplayt hplayi hd
        constructor <;>
          simp [Board.moverOccAfter, Board.oppOccAfter, Board.make_move,
            hturn, hflip, hi]
      · have hflip := flip_zone_not_mem hplayt hd
        simp [Board.oppOccAfter, Board.make_move, hturn, hflip, hi]
  | Double f' t' =>
    obtain rfl : t = t' := by simpa [Move.target?] using ht.symm
    obtain ⟨hgo, hf64, hfbit, ht64, hbit⟩ := mem_generate_double hm
    simp only [double_tgts, Nat.testBit_and, Bool.and_eq_true] at hbit
    obtain ⟨⟨hEx, hEmpty⟩, hCompl⟩ := hbit
    have hplayt : playable t.val :=
      (BB_ALL_testBit_iff t.val).mp (expand_subset_BB hEx)
    cases hturn : b.turn with
    | White =>
      have hthemb := them_turn_white hturn
      rw [hthemb] at hi
      refine ⟨fun hd => ?_, fun hd => ?_⟩
      · have hflip := flip_zone_mem hplayt hplayi hd
        constructor <;>
          simp [Board.moverOccAfter, Board.oppOccAfter, Board.make_move,
            hturn, hflip, hi]
      · have hflip := flip_zone_not_mem hplayt hd
        simp [Board.oppOccAfter, Board.make_move, hturn, hflip, hi]
    | Black =>
      have hthemb := them_turn_black hturn
      rw [hthemb] at hi
      refine ⟨fun hd => ?_, fun hd => ?_⟩
      · have hflip := flip_zone_mem hplayt hplayi hd
        constructor <;>
          simp [Board.moverOccAfter, Board.oppOccAfter, Board.make_move,
            hturn, hflip, hi]
      · have hflip := flip_zone_not_mem hplayt hd
        simp [Board.oppOccAfter, Board.make_move, hturn, hflip, hi]

/-- C5 witness: white single from f1 to g1 against a black piece on g2
(distance 1): the piece flips to the mover. -/
theorem c5_witness :
    (Square.distance (Square.new 14) (Square.new 6) ≤ 1 →
      (({ white := 1 <<< 5, black := 1 <<< 14, walls := RANK_8 ||| FILE_H,
          ply := 0, halfmove := 0 } : Board).moverOccAfter
            (Move.Single (Square.new 6))).testBit 14 = true ∧
        (({ white := 1 <<< 5, black := 1 <<< 14, walls := RANK_8 ||| FILE_H,
            ply := 0, halfmove := 0 } : Board).oppOccAfter
              (Move.Single (Square.new 6))).testBit 14 = false) ∧
    (1 < Square.distance (Square.new 14) (Square.new 6) →
      (({ white := 1 <<< 5, black := 1 <<< 14, walls := RANK_8 ||| FILE_H,
          ply := 0, halfmove := 0 } : Board).oppOccAfter
            (Move.Single (Square.new 6))).testBit 14 = true) :=
  c5_flip_ring
    { white := 1 <<< 5, black := 1 <<< 14, walls := RANK_8 ||| FILE_H,
      ply := 0, halfmove := 0 } (by decide)
    (Move.Single (Square.new 6)) (by decide) (Square.new 6) rfl 14 (by decide)
/-! ### C7: invariants of reachable boards -/

/-- Boards reachable from the start by generator-legal moves. -/
inductive Reachable : Board → Prop where
  | start : Reachable Board.new
  | step {b : Board} {m : Move} : Reachable b → m ∈ b.generate_moves →
      Reachable (b.make_move m)

/-- The invariant that actually holds of reachable boards: the two
occupancies are disjoint subsets of the playable region, and the
blocked set is exactly the complement rows/columns RANK_8 and FILE_H
(hence disjoint from both occupancies, but not a subset of the
playable region). -/
def Inv (b : Board) : Prop :=
  b.white &&& b.black = 0 ∧ b.white &&& BB_ALL = b.white ∧
    b.black &&& BB_ALL = b.black ∧ b.walls = RANK_8 ||| FILE_H

theorem testBit_of_and_mask {x M j : Nat} (h : x &&& M = x)
    (hj : x.testBit j = true) : M.testBit j = true := by
  have hc := congrArg (fun y => y.testBit j) h
  simp only [Nat.testBit_and] at hc
  rw [hj] at hc
  simpa using hc

theorem and_mask_eq_self_iff (x M : Nat) :
    x &&& M = x ↔ ∀ j, x.testBit j = true → M.testBit j = true := by
  constructor
  · exact fun h j hj => testBit_of_and_mask h hj
  · intro h
    apply Nat.eq_of_testBit_eq
    intro j
    rw [Nat.testBit_and]
    cases hx : x.testBit j
    · simp
    · simp [h j hx]

theorem and_comm_zero {a b : Nat} (h : a &&& b = 0) : b &&& a = 0 := by
  apply (zero_iff_testBit _).mpr
  intro j
  have hj := (zero_iff_testBit _).mp h j
  rw [Nat.testBit_and] at hj ⊢
  cases ha : a.testBit j <;> cases hb : b.testBit j <;>
    simp_all

theorem testBit_one_shiftLeft {v j : Nat}
    (h : (1 <<< v).testBit j = true) : j = v := by
  rw [Nat.one_shiftLeft, Nat.testBit_two_pow] at h
  exact (of_decide_eq_true h).symm

/-- One move application step preserves disjointness and the playable
bound: us gains the move mask and the wiped cells, them loses the
wiped cells.  The flip word is arbitrary; the mask bits are either
already the mover's or a fresh playable cell the opponent does not
occupy. -/
theorem step_inv {us them flip mask : Nat}
    (hdisj : us &&& them = 0)
    (husBB : us &&& BB_ALL = us)
    (hthemBB : them &&& BB_ALL = them)
    (hmask : ∀ j, mask.testBit j = true →
      us.testBit j = true ∨
        (them.testBit j = false ∧ BB_ALL.testBit j = true)) :
    ((us ^^^ mask) ||| (flip &&& them)) &&& (them ^^^ (flip &&& them)) = 0 ∧
    ((us ^^^ mask) ||| (flip &&& them)) &&& BB_ALL
        = ((us ^^^ mask) ||| (flip &&& them)) ∧
    (them ^^^ (flip &&& them)) &&& BB_ALL = (them ^^^ (flip &&& them)) := by
  refine ⟨?_, ?_, ?_⟩
  · apply (zero_iff_testBit _).mpr
    intro j
    have hd := (zero_iff_testBit _).mp hdisj j
    rw [Nat.testBit_and] at hd
    simp only [Nat.testBit_and, Nat.testBit_or, Nat.testBit_xor]
    cases hthem_j : them.testBit j
    · simp [hthem_j]
    · have hus_j : us.testBit j = false := by
        cases hu : us.testBit j
        · rfl
        · rw [hu, hthem_j] at hd; simp at hd
      have hmask_j : mask.testBit j = false := by
        cases hmj : mask.testBit j
        · rfl
        · rcases hmask j hmj with h1 | ⟨h2, -⟩
          · rw [h1] at hus_j; simp at hus_j
          · rw [h2] at hthem_j; simp at hthem_j
      cases hflip_j : flip.testBit j <;>
        simp [hus_j, hmask_j, hflip_j, hthem_j]
  · rw [and_mask_eq_self_iff]
    intro j hj
    simp only [Nat.testBit_or, Nat.testBit_xor, Nat.testBit_and,
      Bool.or_eq_true, Bool.and_eq_true] at hj
    rcases hj with hx | ⟨-, hthem_j⟩
    · cases hu : us.testBit j
      · have hmask_j : mask.testBit j = true := by
          cases hmj : mask.testBit j
          · rw [hu, hmj] at hx; simp at hx
          · rfl
        rcases hmask j hmask_j with h1 | ⟨-, h2⟩
        · rw [h1] at hu; simp at hu
        · exact h2
      · exact testBit_of_and_mask husBB hu
    · exact testBit_of_and_mask hthemBB hthem_j
  · rw [and_mask_eq_self_iff]
    intro j hj
    simp only [Nat.testBit_xor, Nat.testBit_and] at hj
    cases hthem_j : them.testBit j
    · rw [hthem_j] at hj; simp at hj
    · exact testBit_of_and_mask hthemBB hthem_j

theorem make_move_pass_fields (b : Board) :
    (b.make_move Move.Pass).white = b.white ∧
    (b.make_move Move.Pass).black = b.black ∧
    (b.make_move Move.Pass).walls = b.walls := by
  simp [Board.make_move]

theorem make_move_single_white (b : Board) (t : Square)
    (h : b.turn = Player.White) :
    (b.make_move (Move.Single t)).white
        = (b.white ^^^ t.as_set) ||| (expand t.as_set &&& b.black) ∧
    (b.make_move (Move.Single t)).black
        = b.black ^^^ (expand t.as_set &&& b.black) ∧
    (b.make_move (Move.Single t)).walls = b.walls := by
  simp [Board.make_move, h]

theorem make_move_single_black (b : Board) (t : Square)
    (h : b.turn = Player.Black) :
    (b.make_move (Move.Single t)).black
        = (b.black ^^^ t.as_set) ||| (expand t.as_set &&& b.white) ∧
    (b.make_move (Move.Single t)).white
        = b.white ^^^ (expand t.as_set &&& b.white) ∧
    (b.make_move (Move.Single t)).walls = b.walls := by
  simp [Board.make_move, h]

theorem make_move_double_white (b : Board) (f t : Square)
    (h : b.turn = Player.White) :
    (b.make_move (Move.Double f t)).white
        = (b.white ^^^ (f.as_set ||| t.as_set))
            ||| (expand t.as_set &&& b.black) ∧
    (b.make_move (Move.Double f t)).black
        = b.black ^^^ (expand t.as_set &&& b.black) ∧
    (b.make_move (Move.Double f t)).walls = b.walls := by
  simp [Board.make_move, h]

theorem make_move_double_black (b : Board) (f t : Square)
    (h : b.turn = Player.Black) :
    (b.make_move (Move.Double f t)).black
        = (b.black ^^^ (f.as_set ||| t.as_set))
            ||| (expand t.as_set &&& b.white) ∧
    (b.make_move (Move.Double f t)).white
        = b.white ^^^ (expand t.as_set &&& b.white) ∧
    (b.make_move (Move.Double f t)).walls = b.walls := by
  simp [Board.make_move, h]

/-- C7 counterexample: the starting board is reachable, yet its
blocked-cell set is not a subset of the 7x7 playable region (it is
the complement rows/columns RANK_8 and FILE_H). -/
theorem c7_counterexample :
    Reachable Board.new ∧ Board.new.walls &&& BB_ALL ≠ Board.new.walls :=
  ⟨Reachable.start, by decide⟩

/-- C7 (amended): in every reachable Board the two occupancy sets are
disjoint from each other and contained in the playable region, and the
blocked-cell set is exactly RANK_8 with FILE_H, the complement of the
playable region (hence disjoint from both occupancies but not a subset
of the playable region as the claim stated). -/
theorem c7_reachable_inv : ∀ b : Board, Reachable b → Inv b := by
  intro b hb
  induction hb with
  | start => exact ⟨by decide, by decide, by decide, by decide⟩
  | @step b m hb hm ih =>
    obtain ⟨hdisj, hwBB, hbBB, hwalls⟩ := ih
    cases m with
    | Pass =>
      obtain ⟨hW, hB, hWl⟩ := make_move_pass_fields b
      exact ⟨by rw [hW, hB]; exact hdisj, by rw [hW]; exact hwBB,
        by rw [hB]; exact hbBB, by rw [hWl]; exact hwalls⟩
    | Single t =>
      obtain ⟨hgo, ht64, hbit⟩ := mem_generate_single hm
      rw [Nat.testBit_and, Bool.and_eq_true] at hbit
      obtain ⟨hEx, hEmpty⟩ := hbit
      have hBBto : BB_ALL.testBit t.val = true := expand_subset_BB hEx
      have hef := emptyBB_facts ht64 hEmpty
      cases hturn : b.turn with
      | White =>
        rw [us_turn_white hturn, them_turn_white hturn] at hef
        have hmask : ∀ j, (t.as_set).testBit j = true →
            b.white.testBit j = true ∨
              (b.black.testBit j = false ∧ BB_ALL.testBit j = true) := by
          intro j hj
          obtain rfl := testBit_one_shiftLeft hj
          exact Or.inr ⟨hef.2.1, hBBto⟩
        have hkey := @step_inv b.white b.black (expand t.as_set) t.as_set
          hdisj hwBB hbBB hmask
        obtain ⟨hW, hB, hWl⟩ := make_move_single_white b t hturn
        exact ⟨by rw [hW, hB]; exact hkey.1, by rw [hW]; exact hkey.2.1,
          by rw [hB]; exact hkey.2.2, by rw [hWl]; exact hwalls⟩
      | Black =>
        rw [us_turn_black hturn, them_turn_black hturn] at hef
        have hmask : ∀ j, (t.as_set).testBit j = true →
            b.black.testBit j = true ∨
              (b.white.testBit j = false ∧ BB_ALL.testBit j = true) := by
          intro j hj
          obtain rfl := testBit_one_shiftLeft hj
          exact Or.inr ⟨hef.2.1, hBBto⟩
        have hkey := @step_inv b.black b.white (expand t.as_set) t.as_set
          (and_comm_zero hdisj) hbBB hwBB hmask
        obtain ⟨hB, hW, hWl⟩ := make_move_single_black b t hturn
        exact ⟨by rw [hW, hB]; exact and_comm_zero hkey.1,
          by rw [hW]; exact hkey.2.2, by rw [hB]; exact hkey.2.1,
          by rw [hWl]; exact hwalls⟩
    | Double f t =>
      obtain ⟨hgo, hf64, hfbit, ht64, hbit⟩ := mem_generate_double hm
      simp only [double_tgts, Nat.testBit_and, Bool.and_eq_true] at hbit
      obtain ⟨⟨hEx, hEmpty⟩, hCompl⟩ := hbit
      have hBBto : BB_ALL.testBit t.val = true := expand_subset_BB hEx
      have hef := emptyBB_facts ht64 hEmpty
      cases hturn : b.turn with
      | White =>
        rw [us_turn_white hturn] at hfbit
        rw [us_turn_white hturn, them_turn_white hturn] at hef
        have hmask : ∀ j, (f.as_set ||| t.as_set).testBit j = true →
            b.white.testBit j = true ∨
              (b.black.testBit j = false ∧ BB_ALL.testBit j = true) := by
          intro j hj
          rw [Nat.testBit_or, Bool.or_eq_true] at hj
          rcases hj with hj | hj
          · obtain rfl := testBit_one_shiftLeft hj
            exact Or.inl hfbit
          · obtain rfl := testBit_one_shiftLeft hj
            exact Or.inr ⟨hef.2.1, hBBto⟩
        have hkey := @step_inv b.white b.black (expand t.as_set)
          (f.as_set ||| t.as_set) hdisj hwBB hbBB hmask
        obtain ⟨hW, hB, hWl⟩ := make_move_double_white b f t hturn
        exact ⟨by rw [hW, hB]; exact hkey.1, by rw [hW]; exact hkey.2.1,
          by rw [hB]; exact hkey.2.2, by rw [hWl]; exact hwalls⟩
      | Black =>
        rw [us_turn_black hturn] at hfbit
        rw [us_turn_black hturn, them_turn_black hturn] at hef
        have hmask : ∀ j, (f.as_set ||| t.as_set).testBit j = true →
            b.black.testBit j = true ∨
              (b.white.testBit j = false ∧ BB_ALL.testBit j = true) := by
          intro j hj
          rw [Nat.testBit_or, Bool.or_eq_true] at hj
          rcases hj with hj | hj
          · obtain rfl := testBit_one_shiftLeft hj
            exact Or.inl hfbit
          · obtain rfl := testBit_one_shiftLeft hj
            exact Or.inr ⟨hef.2.1, hBBto⟩
        have hkey := @step_inv b.black b.white (expand t.as_set)
          (f.as_set ||| t.as_set) (and_comm_zero hdisj) hbBB hwBB hmask
        obtain ⟨hB, hW, hWl⟩ := make_move_double_black b f t hturn
        exact ⟨by rw [hW, hB]; exact and_comm_zero hkey.1,
          by rw [hW]; exact hkey.2.2, by rw [hB]; exact hkey.2.1,
          by rw [hWl]; exact hwalls⟩

/-- C7 witness: the amended invariant instantiated at the starting
board via its reachability. -/
theorem c7_witness : Inv Board.new :=
  c7_reachable_inv Board.new Reachable.start
/-! ### C9: make_random_move agrees with indexing the move list -/

theorem pickMove_eq_get? : ∀ (l : List Move) (n : Nat),
    pickMove l n = l.get? n
  | [], _ => rfl
  | _ :: _, 0 => rfl
  | _ :: ms, n + 1 => pickMove_eq_get? ms n

theorem flatMap_filter_eq {α β : Type} (p : α → Bool) (g : α → List β)
    (hg : ∀ x, p x = false → g x = []) :
    ∀ l : List α, l.flatMap g = (l.filter p).flatMap g := by
  intro l
  induction l with
  | nil => rfl
  | cons a l ih =>
      rw [List.flatMap_cons, List.filter_cons]
      cases hp : p a
      · rw [hg a hp, List.nil_append]
        simpa using ih
      · simp only [if_pos trivial]
        rw [List.flatMap_cons, ih]

theorem flatMap_congr_mem {α β : Type} {l : List α} {g₁ g₂ : α → List β}
    (h : ∀ x ∈ l, g₁ x = g₂ x) : l.flatMap g₁ = l.flatMap g₂ := by
  induction l with
  | nil => rfl
  | cons a l ih =>
      rw [List.flatMap_cons, List.flatMap_cons, h a (by simp),
        ih (fun x hx => h x (List.mem_cons_of_mem a hx))]

/-- The per-origin doubles enumeration over the full 64-entry map
(entries 0 outside the mover's occupancy) equals the enumeration over
the occupied origins only. -/
theorem doubles_map_eq (us empty : Nat) :
    (List.range 64).flatMap (fun f =>
      (bitIndices (if us.testBit f then double_tgts empty f else 0)).map
        (fun j => Move.Double (Square.new f) (Square.new j)))
      = (bitIndices us).flatMap (fun f =>
          (bitIndices (double_tgts empty f)).map
            (fun j => Move.Double (Square.new f) (Square.new j))) := by
  rw [flatMap_filter_eq (fun f => us.testBit f) _
    (fun x hx => by
      simp only at hx
      rw [if_neg (by simp [hx]), bitIndices_zero, List.map_nil])
    (List.range 64)]
  apply flatMap_congr_mem
  intro x hx
  rw [List.mem_filter] at hx
  simp [hx.2]

/-- C9: on a non-terminal reachable board, make_random_move with an
rng that returns i, for i below the number of legal moves, produces
exactly the board obtained by applying the i-th element of the
materialised ordered move list. -/
theorem c9_random_eq_indexed (b : Board) (hr : Reachable b)
    (hgo : b.game_over = false) (i : Nat)
    (hi : i < b.generate_moves.length) :
    b.make_random_move (fun _ _ => i)
      = some (b.make_move (b.generate_moves.get ⟨i, hi⟩)) := by
  cases hany : ((expand b.us &&& b.emptyBB != 0)
      || (bitIndices b.us).any (fun f => double_tgts b.emptyBB f != 0)) with
  | false =>
    have hparts := Bool.or_eq_false_iff.mp hany
    have hsingles : expand b.us &&& b.emptyBB = 0 := by
      have h1 := hparts.1
      by_contra hne
      simp [hne] at h1
    have hdoubles : ∀ f, f < 64 → b.us.testBit f = true →
        double_tgts b.emptyBB f = 0 := by
      intro f hf hbit
      have hfa := List.any_eq_false.mp hparts.2 f (mem_bitIndices.mpr ⟨hf, hbit⟩)
      by_contra hne
      simp [hne] at hfa
    have hp := generate_moves_eq_pass b hgo hsingles hdoubles
    have hi0 : i = 0 := by
      rw [hp] at hi
      simpa using Nat.lt_one_iff.mp hi
    subst hi0
    have hgetPass : b.generate_moves.get ⟨0, hi⟩ = Move.Pass := by
      revert hi
      rw [hp]
      intro hi
      rfl
    rw [hgetPass]
    simp only [Board.make_random_move, hgo, Bool.false_eq_true, if_false]
    rw [hany]
    simp
  | true =>
    have hlists : ((bitIndices (expand b.us &&& b.emptyBB)).map
          (fun j => Move.Single (Square.new j)))
        ++ ((List.range 64).flatMap (fun f =>
          (bitIndices (if b.us.testBit f then double_tgts b.emptyBB f
              else 0)).map
            (fun j => Move.Double (Square.new f) (Square.new j))))
        = b.generate_moves := by
      rw [doubles_map_eq]
      simp only [Board.generate_moves, hgo, Bool.false_eq_true, if_false]
      rw [hany]
      simp
    simp only [Board.make_random_move, hgo, Bool.false_eq_true, if_false]
    rw [hany]
    simp only [Bool.not_true, Bool.false_eq_true, if_false]
    rw [pickMove_eq_get?, hlists, List.get?_eq_get hi]

/-- C9 witness: on the starting board with an rng returning 3, the
random mover plays exactly the fourth generated move. -/
theorem c9_witness :
    Board.new.make_random_move (fun _ _ => 3)
      = some (Board.new.make_move
          (Board.new.generate_moves.get ⟨3, by decide⟩)) :=
  c9_random_eq_indexed Board.new Reachable.start (by decide) 3 (by decide)
